import Mathlib

set_option maxHeartbeats 1000000

/-!
Shallow embedding of the storage-inspection scripts of this repository:
`scripts/swift-inspector.py`, `scripts/check-all-containers.py` and
`scripts/deep-swift-scan.py`.

The I/O boundary (the `swiftclient` connection) is modelled as an explicit
backend function passed to each operation; every listing entry is an
`ObjectRecord` mirroring the dictionaries returned by
`Connection.get_container`.  Machine integers do not overflow here (Python
integers are unbounded), so byte counts are embedded as `Int`.
-/

/-- One entry of a Swift object listing, as consumed by the scripts:
`obj['name']`, `obj['bytes']`, `obj['last_modified']`, `obj.get('hash')`. -/
structure ObjectRecord where
  name : String
  bytes : Int
  last_modified : String
  etag : Option String
  deriving DecidableEq, Repr

/-- Placeholder record used only as the (unreachable) default of `getLastD`
when reading `objects[-1]` from a page already known to be non-empty. -/
def emptyObj : ObjectRecord := ⟨"", 0, "", none⟩

/-- Python `sum(obj['bytes'] for obj in objects)` with start value `0`
(`swift-inspector.py` lines 212, 254, 295; left fold, integer accumulator). -/
def sumBytes (objs : List ObjectRecord) : Int :=
  objs.foldl (fun acc o => acc + o.bytes) 0

/-- Marker test of a Swift listing request: a page request with marker `m`
returns only records whose key is strictly greater than `m`; an absent
marker (`None`) starts at the beginning of the keyspace. -/
def afterMarker : Option String → String → Bool
  | none, _ => true
  | some m, n => decide (m < n)

/-- One page of a well-behaved backend's listing for a container whose full
ascending listing is `objs`: up to `limit` records with key after `marker`.
This models the `get_container(container, marker=..., limit=...)` call in
`swift-inspector.py` lines 185–190 (the source passes `limit=1000`). -/
def pageAfter (objs : List ObjectRecord) (marker : Option String) (limit : Nat) :
    List ObjectRecord :=
  (objs.filter (fun o => afterMarker marker o.name)).take limit

/-- The `while True` pagination loop of `SwiftInspector.list_all_objects`
(`swift-inspector.py` lines 183–196), over an abstract backend: fetch a page
for the current marker; stop on an empty page (`if not objects: break`);
otherwise extend the accumulator and advance the marker to the last record's
name (`marker = objects[-1]['name']`).  `fuel` bounds the number of
iterations we unfold; `none` means the loop is still running after `fuel`
round trips (the source loop has no other exit). -/
def listLoop (backend : Option String → List ObjectRecord) :
    Nat → Option String → List ObjectRecord → Option (List ObjectRecord)
  | 0, _, _ => none
  | fuel + 1, marker, acc =>
    let page := backend marker
    if page.isEmpty then some acc
    else listLoop backend fuel (some ((page.getLastD emptyObj).name)) (acc ++ page)

/-- `SwiftInspector.list_all_objects` run against a well-behaved backend whose
full ascending listing is `objs`, paginating with page size `limit`.
`objs.length + 1` round trips always suffice for such a backend (one extra
call observes the final empty page), so the fuel is not a restriction. -/
def list_all_objects (objs : List ObjectRecord) (limit : Nat) :
    Option (List ObjectRecord) :=
  listLoop (fun marker => pageAfter objs marker limit) (objs.length + 1) none []

/-- The keys of a listing are strictly ascending (hence pairwise distinct). -/
def keysSorted (l : List ObjectRecord) : Prop :=
  List.Pairwise (fun a b => a.name < b.name) l

/-- Aggregation used throughout the scripts: `len(all_objects)` and
`sum(obj['bytes'] for obj in all_objects)`. -/
def aggregate (objs : List ObjectRecord) : Nat × Int :=
  (objs.length, sumBytes objs)

/-- One row of `conn.get_account()` as used by `check-all-containers.py`:
`container['name']`, `container['count']`, `container['bytes']`. -/
structure ContainerEntry where
  name : String
  count : Nat
  bytes : Int
  deriving DecidableEq, Repr

/-- The `total_account_size` accumulation of `check_all_containers`
(`check-all-containers.py` lines 55–62): integer sum of `container['bytes']`
over all listed containers, starting from `0`. -/
def containersTotal (cs : List ContainerEntry) : Int :=
  cs.foldl (fun acc c => acc + c.bytes) 0

/-- The size-comparison verdict of `check_all_containers`
(`check-all-containers.py` lines 95–99): the warning branch fires when
`abs(total_account_size - reported_size) > 1000`, otherwise the script
reports "Sizes match!".  `true` is the "Sizes match!" (within tolerance)
verdict. -/
def check_sizes_match (total_account_size reported_size : Int) : Bool :=
  if |total_account_size - reported_size| > 1000 then false else true

/-- A constantly repeating backend: every page request returns the same
single-record page, so every page's last key equals the previous page's last
key (a non-advancing cursor). -/
def dupPageBackend : Option String → List ObjectRecord :=
  fun _ => [⟨"dup", 1, "", none⟩]

/-- A small concrete three-object ascending listing, used as witness input. -/
def demoListing : List ObjectRecord :=
  [⟨"a.sql", 10, "", none⟩, ⟨"b.sql", 20, "", none⟩, ⟨"c.sql", 30, "", none⟩]

/-! ### Backup-set classification (`swift-inspector.py` lines 241–270) -/

/-- Python `name.split('/')` on a character list: split at every `'/'`;
consecutive separators yield empty segments, and the result is never empty
(an input with no separator yields the single segment `[cs]`). -/
def splitSlash : List Char → List (List Char)
  | [] => [[]]
  | c :: rest =>
    if c = '/' then [] :: splitSlash rest
    else
      match splitSlash rest with
      | [] => [[c]]
      | p :: ps => (c :: p) :: ps

/-- The maximal runs of Unicode decimal-digit code points (general category
`Nd`): Python's `\d` in a `str` pattern without `re.ASCII` matches exactly
these characters.  The 62 ranges are Unicode 14.0, the table used by the
CPython 3.11 `re` module that runs these scripts. -/
def ndDigitRanges : List (Nat × Nat) :=
  [(48, 57), (1632, 1641), (1776, 1785), (1984, 1993), (2406, 2415), (2534, 2543),
   (2662, 2671), (2790, 2799), (2918, 2927), (3046, 3055), (3174, 3183), (3302, 3311),
   (3430, 3439), (3558, 3567), (3664, 3673), (3792, 3801), (3872, 3881), (4160, 4169),
   (4240, 4249), (6112, 6121), (6160, 6169), (6470, 6479), (6608, 6617), (6784, 6793),
   (6800, 6809), (6992, 7001), (7088, 7097), (7232, 7241), (7248, 7257), (42528, 42537),
   (43216, 43225), (43264, 43273), (43472, 43481), (43504, 43513), (43600, 43609),
   (44016, 44025), (65296, 65305), (66720, 66729), (68912, 68921), (69734, 69743),
   (69872, 69881), (69942, 69951), (70096, 70105), (70384, 70393), (70736, 70745),
   (70864, 70873), (71248, 71257), (71360, 71369), (71472, 71481), (71904, 71913),
   (72016, 72025), (72784, 72793), (73040, 73049), (73120, 73129), (92768, 92777),
   (92864, 92873), (93008, 93017), (120782, 120831), (123200, 123209), (123632, 123641),
   (125264, 125273), (130032, 130041)]

/-- Python's `\d` on one character: a Unicode decimal digit (category `Nd`),
which includes the ASCII digits `0`–`9` but also e.g. the Arabic-Indic
digits. -/
def isPyDigit (c : Char) : Bool :=
  ndDigitRanges.any (fun r => decide (r.1 ≤ c.toNat) && decide (c.toNat ≤ r.2))

/-- The `\d{8}_\d{6}` core of the pattern `r'^\d{8}_\d{6}$'` of line 245:
exactly eight decimal digits, an underscore, then six decimal digits and
nothing else, with `\d` the Unicode decimal digits of `isPyDigit`. -/
def isTimestampCore (cs : List Char) : Bool :=
  decide (cs.length = 15) && (cs.take 8).all isPyDigit &&
    decide ((cs.drop 8).headD ' ' = '_') && (cs.drop 9).all isPyDigit

/-- Python's `$` anchor matches at the end of the string or just before a
newline at the end of the string, so before matching the anchored pattern we
discard one final newline when present. -/
def stripTrailingNewline (cs : List Char) : List Char :=
  if cs.getLast? = some '\n' then cs.dropLast else cs

/-- Truthiness of Python `re.match(r'^\d{8}_\d{6}$', s)` (line 245) on `s`
as a character list: the whole input, up to an optional single trailing
newline, is the eight-digits/underscore/six-digits pattern. -/
def tsAccept (cs : List Char) : Bool :=
  isTimestampCore (stripTrailingNewline cs)

/-- Key extraction of `analyze_backup_directories` (lines 243–246):
`parts = obj['name'].split('/')`; the object belongs to backup directory
`parts[0]` iff `len(parts) >= 2 and re.match(r'^\d{8}_\d{6}$', parts[0])`,
otherwise it belongs to no group. -/
def backupKeyOf (name : String) : Option String :=
  let parts := splitSlash name.toList
  if 2 ≤ parts.length ∧ tsAccept (parts.headD []) = true then
    some (String.mk (parts.headD []))
  else none

/-- Lines 247–249: append `o` to the member list of the group keyed `k`,
creating the group at the end when `k` is new (Python dict insertion
order). -/
def addToGroups : List (String × List ObjectRecord) → String → ObjectRecord →
    List (String × List ObjectRecord)
  | [], k, o => [(k, [o])]
  | (k', ms) :: rest, k, o =>
    if k' = k then (k', ms ++ [o]) :: rest
    else (k', ms) :: addToGroups rest k o

/-- One iteration of the grouping loop of lines 242–249: objects whose name
yields no backup key leave the dictionary unchanged. -/
def classifyStep (groups : List (String × List ObjectRecord)) (o : ObjectRecord) :
    List (String × List ObjectRecord) :=
  match backupKeyOf o.name with
  | some k => addToGroups groups k o
  | none => groups

/-- The `backup_dirs` dictionary built by `analyze_backup_directories`,
as an insertion-ordered association list. -/
def backupDirs (objs : List ObjectRecord) : List (String × List ObjectRecord) :=
  objs.foldl classifyStep []

/-- Association lookup in the grouping dictionary. -/
def lookupGroup : List (String × List ObjectRecord) → String → Option (List ObjectRecord)
  | [], _ => none
  | (k', ms) :: rest, k => if k' = k then some ms else lookupGroup rest k

/-- The per-directory summary stored in `backup_analysis` (lines 266–270):
`objects` (member count), `total_size` (byte sum), `files` (the members). -/
structure BackupSet where
  objects : Nat
  total_size : Int
  files : List ObjectRecord
  deriving DecidableEq, Repr

/-- `SwiftInspector.analyze_backup_directories` (lines 241–272): group the
listing by timestamp-prefixed first path segment and summarise each group.
The returned mapping is the function's entire classification output: objects
whose name does not match the convention appear in no group and there is no
residual component. -/
def analyze_backup_directories (objs : List ObjectRecord) : List (String × BackupSet) :=
  (backupDirs objs).map (fun p => (p.1, ⟨p.2.length, sumBytes p.2, p.2⟩))

/-- The dictionary-key invariants maintained by the grouping loop: every
member of a group carries that group's key. -/
def GroupsConsistent (groups : List (String × List ObjectRecord)) : Prop :=
  ∀ p ∈ groups, ∀ o ∈ p.2, backupKeyOf o.name = some p.1

/-- Spec example scenario 3: an object inside a timestamp directory. -/
def objMatch : ObjectRecord := ⟨"20250726_140000/db.sql", 50000, "", none⟩

/-- Spec example scenario 3: a top-level object with no separator. -/
def objResidual : ObjectRecord := ⟨"readme.txt", 200, "", none⟩

/-! ### Hidden-data reconciliation (`swift-inspector.py` lines 278–332) -/

/-- The candidate causes printed when the container reports more bytes than
the object-listing sum (lines 309–315). -/
def containerOverageCauses : List String :=
  ["Object versioning or snapshots", "Soft-deleted objects", "Metadata overhead",
   "Swift storage allocation overhead"]

/-- The candidate cause printed when the account reports more bytes than the
container (lines 317–319). -/
def accountOverageCauses : List String :=
  ["other containers or account metadata"]

/-- Everything `check_for_hidden_data` computes and reports: the three raw
totals, the two signed differences, and the candidate-cause annotations it
prints for each difference. -/
structure HiddenDataReport where
  account_bytes : Int
  container_bytes : Int
  object_bytes : Int
  container_vs_objects : Int
  account_vs_container : Int
  container_causes : List String
  account_causes : List String
  deriving DecidableEq, Repr

/-- `SwiftInspector.check_for_hidden_data` (lines 284–319) as a pure function
of the backend's reported account bytes, reported container bytes and object
listing: `container_vs_objects = container_bytes - object_bytes`,
`account_vs_container = account_bytes - container_bytes`; causes are
attached exactly when the respective difference is strictly positive (lines
309 and 317).  The source performs no other computation on these values: no
tolerance check, no sign/validity check, and no anomaly flag of any kind. -/
def check_for_hidden_data (account_bytes container_bytes : Int)
    (objects : List ObjectRecord) : HiddenDataReport :=
  let object_bytes := sumBytes objects
  let container_vs_objects := container_bytes - object_bytes
  let account_vs_container := account_bytes - container_bytes
  { account_bytes := account_bytes
    container_bytes := container_bytes
    object_bytes := object_bytes
    container_vs_objects := container_vs_objects
    account_vs_container := account_vs_container
    container_causes := if container_vs_objects > 0 then containerOverageCauses else []
    account_causes := if account_vs_container > 0 then accountOverageCauses else [] }

/-- The three objects of spec example scenario 1 (sizes 100000, 150000,
249500; total 499500). -/
def scenario1Objects : List ObjectRecord :=
  [⟨"a", 100000, "", none⟩, ⟨"b", 150000, "", none⟩, ⟨"c", 249500, "", none⟩]

/-! ### Prefix probing (`deep-swift-scan.py` lines 101–119) -/

/-- Outcome of probing one candidate listing parameter: either the number of
objects found together with the first three sample names (the loop prints
`objects[:3]`), or the per-candidate error report of the `except` arm. -/
inductive ProbeResult where
  | found : String → Nat → List String → ProbeResult
  | failed : String → String → ProbeResult
  deriving DecidableEq, Repr

/-- Default `ProbeResult` used with `getD`. -/
def noProbe : ProbeResult := ProbeResult.failed ("") ("")

/-- One iteration of the probing loop (lines 105–119): the `try` body lists
the container under one candidate parameter; the `except` arm catches a
failure of that probe alone and records it. -/
def probeOne (conn : String → Except String (List ObjectRecord)) (pfx : String) : ProbeResult :=
  match conn pfx with
  | Except.ok objs => ProbeResult.found pfx objs.length ((objs.map (fun o => o.name)).take 3)
  | Except.error e => ProbeResult.failed pfx e

/-- The probing loop of `deep_container_scan` (lines 103–119): probe every
candidate in order, recording one outcome per candidate; a failing probe is
caught inside the loop body, so the loop always continues with the rest. -/
def deep_container_scan_probes (conn : String → Except String (List ObjectRecord)) :
    List String → List ProbeResult
  | [] => []
  | p :: rest => probeOne conn p :: deep_container_scan_probes conn rest

/-- The candidate list `prefixes_to_try` of line 103. -/
def pfxsToTry : List String := ["", "20", ".", "_", "backup", "old", "tmp"]

/-- A concrete backend whose probe of the candidate `"."` fails and whose
other probes succeed with an empty page. -/
def demoConn : String → Except String (List ObjectRecord) :=
  fun p => if p = "." then Except.error ("probe failed") else Except.ok []

/-! ### Helper lemmas -/

lemma getLastD_mem_of_ne_nil {l : List ObjectRecord} (h : l ≠ []) (d : ObjectRecord) :
    l.getLastD d ∈ l := by
  rw [List.getLastD_eq_getLast? d l, List.getLast?_eq_getLast_of_ne_nil h]
  exact List.getLast_mem h

lemma getLastD_eq_getLast_of_ne_nil {l : List ObjectRecord} (h : l ≠ []) (d : ObjectRecord) :
    l.getLastD d = l.getLast h := by
  rw [List.getLastD_eq_getLast? d l, List.getLast?_eq_getLast_of_ne_nil h]
  rfl

lemma afterMarker_of_lt {marker : Option String} {x y : String}
    (hx : afterMarker marker x = true) (hxy : x < y) : afterMarker marker y = true := by
  cases marker with
  | none => rfl
  | some m =>
    simp only [afterMarker, decide_eq_true_eq] at hx ⊢
    exact lt_trans hx hxy

/-- In a strictly ascending listing, the records strictly after the last key of
the first `limit` records are exactly the records beyond position `limit`. -/
lemma filter_after_page_last (rem : List ObjectRecord) (limit : Nat)
    (hs : List.Pairwise (fun a b => a.name < b.name) rem)
    (hne : rem ≠ []) (hlim : 1 ≤ limit) :
    rem.filter (fun o => afterMarker (some (((rem.take limit).getLastD emptyObj).name)) o.name)
      = rem.drop limit := by
  have htne : rem.take limit ≠ [] := by
    simp only [ne_eq, List.take_eq_nil_iff, not_or]
    exact ⟨by omega, hne⟩
  set lastRec := (rem.take limit).getLastD emptyObj with hlast
  have hlast_mem_take : lastRec ∈ rem.take limit := getLastD_mem_of_ne_nil htne emptyObj
  have hdecomp : rem.take limit ++ rem.drop limit = rem := List.take_append_drop limit rem
  have hs2 : List.Pairwise (fun a b => a.name < b.name) (rem.take limit ++ rem.drop limit) := by
    rw [hdecomp]; exact hs
  obtain ⟨hpt, _, hcross⟩ := List.pairwise_append.mp hs2
  have htake_decomp : (rem.take limit).dropLast ++ [lastRec] = rem.take limit := by
    have h1 : lastRec = (rem.take limit).getLast htne := by
      rw [hlast]; exact getLastD_eq_getLast_of_ne_nil htne emptyObj
    rw [h1]
    exact List.dropLast_append_getLast htne
  have hnot_take : ∀ a ∈ rem.take limit, ¬ lastRec.name < a.name := by
    intro a ha
    rw [← htake_decomp] at ha
    rcases List.mem_append.mp ha with hd | hl
    · have hpt2 : List.Pairwise (fun a b => a.name < b.name)
          ((rem.take limit).dropLast ++ [lastRec]) := by rw [htake_decomp]; exact hpt
      obtain ⟨_, _, hc2⟩ := List.pairwise_append.mp hpt2
      exact lt_asymm (hc2 a hd lastRec (List.mem_singleton_self lastRec))
    · rw [List.mem_singleton.mp hl]
      exact lt_irrefl _
  have hall_drop : ∀ a ∈ rem.drop limit, lastRec.name < a.name :=
    fun a ha => hcross lastRec hlast_mem_take a ha
  conv_lhs => rw [← hdecomp]
  rw [List.filter_append]
  have h1 : (rem.take limit).filter
      (fun o => afterMarker (some lastRec.name) o.name) = [] := by
    rw [List.filter_eq_nil_iff]
    intro a ha
    simp only [afterMarker, decide_eq_true_eq]
    exact hnot_take a ha
  have h2 : (rem.drop limit).filter
      (fun o => afterMarker (some lastRec.name) o.name) = rem.drop limit := by
    rw [List.filter_eq_self]
    intro a ha
    simp only [afterMarker, decide_eq_true_eq]
    exact hall_drop a ha
  rw [h1, h2, List.nil_append]

/-- Advancing the cursor to the last key of the current page restricts the
full listing to exactly the records beyond the page. -/
lemma filter_advance_cursor (objs : List ObjectRecord) (marker : Option String) (limit : Nat)
    (hs : keysSorted objs) (hlim : 1 ≤ limit)
    (hne : objs.filter (fun o => afterMarker marker o.name) ≠ []) :
    objs.filter (fun o => afterMarker
        (some (((objs.filter (fun o => afterMarker marker o.name)).take limit).getLastD
          emptyObj).name) o.name)
      = (objs.filter (fun o => afterMarker marker o.name)).drop limit := by
  set rem := objs.filter (fun o => afterMarker marker o.name) with hrem
  set lastRec := (rem.take limit).getLastD emptyObj with hlast
  have htne : rem.take limit ≠ [] := by
    simp only [ne_eq, List.take_eq_nil_iff, not_or]
    exact ⟨by omega, hne⟩
  have hlast_mem : lastRec ∈ rem := List.take_subset limit rem (getLastD_mem_of_ne_nil htne emptyObj)
  have hlast_after : afterMarker marker lastRec.name = true := by
    have := List.mem_filter.mp (hrem ▸ hlast_mem)
    exact this.2
  have hpoint : ∀ o ∈ objs,
      (afterMarker (some lastRec.name) o.name)
        = (afterMarker (some lastRec.name) o.name && afterMarker marker o.name) := by
    intro o _
    cases hq : afterMarker (some lastRec.name) o.name with
    | false => rw [Bool.false_and]
    | true =>
      have hlt : lastRec.name < o.name := by
        simpa only [afterMarker, decide_eq_true_eq] using hq
      rw [afterMarker_of_lt hlast_after hlt, Bool.and_true]
  rw [List.filter_congr hpoint, ← List.filter_filter, ← hrem]
  exact filter_after_page_last rem limit (hrem ▸ hs.filter _) hne hlim

/-- Every round of the pagination loop appends the next page and recurses on
the strictly smaller remainder, so with enough fuel the loop returns the
accumulator followed by everything after the marker. -/
lemma listLoop_complete (objs : List ObjectRecord) (limit : Nat)
    (hs : keysSorted objs) (hlim : 1 ≤ limit) :
    ∀ (fuel : Nat) (marker : Option String) (acc : List ObjectRecord),
      (objs.filter (fun o => afterMarker marker o.name)).length < fuel →
      listLoop (fun m => pageAfter objs m limit) fuel marker acc
        = some (acc ++ objs.filter (fun o => afterMarker marker o.name)) := by
  intro fuel
  induction fuel with
  | zero => intro marker acc hlen; omega
  | succ fuel ih =>
    intro marker acc hlen
    by_cases hrem : objs.filter (fun o => afterMarker marker o.name) = []
    · simp [listLoop, pageAfter, hrem]
    · have htne : (objs.filter (fun o => afterMarker marker o.name)).take limit ≠ [] := by
        simp only [ne_eq, List.take_eq_nil_iff, not_or]
        exact ⟨by omega, hrem⟩
      have hpage : pageAfter objs marker limit
          = (objs.filter (fun o => afterMarker marker o.name)).take limit := rfl
      simp only [listLoop, hpage]
      rw [if_neg (by simpa [List.isEmpty_iff] using htne)]
      have hadv := filter_advance_cursor objs marker limit hs hlim hrem
      have hlen1 : 1 ≤ (objs.filter (fun o => afterMarker marker o.name)).length :=
        List.length_pos.mpr hrem
      have hlen2 : (objs.filter (fun o => afterMarker
          (some ((((objs.filter (fun o => afterMarker marker o.name)).take limit).getLastD
            emptyObj).name)) o.name)).length < fuel := by
        rw [hadv, List.length_drop]
        omega
      rw [ih _ _ hlen2, hadv]
      rw [List.append_assoc]
      rw [List.take_append_drop]

/-! ### Claim theorems -/

/-- C1: for a container whose full listing `objs` holds N objects with
strictly ascending keys and any positive page size, the pagination loop of
`list_all_objects` terminates (within N+1 round trips) and returns exactly
the N object records, with pairwise distinct keys in ascending order,
regardless of the page size. -/
theorem list_all_objects_complete (objs : List ObjectRecord) (limit : Nat)
    (hsorted : keysSorted objs) (hlim : 1 ≤ limit) :
    ∃ result, list_all_objects objs limit = some result ∧ result = objs ∧
      result.length = objs.length ∧
      List.Pairwise (fun a b => a.name < b.name) result := by
  refine ⟨objs, ?_, rfl, rfl, hsorted⟩
  have hfilter : objs.filter (fun o => afterMarker none o.name) = objs := by
    simp [afterMarker]
  have h := listLoop_complete objs limit hsorted hlim (objs.length + 1) none []
  rw [hfilter] at h
  rw [list_all_objects, h (by omega), List.nil_append]

lemma demoListing_sorted : keysSorted demoListing := by
  unfold keysSorted demoListing
  refine List.Pairwise.cons ?_ (List.Pairwise.cons ?_ (List.Pairwise.cons ?_ List.Pairwise.nil)) <;>
    intro b hb <;> fin_cases hb <;> exact String.lt_iff_toList_lt.mpr (by decide)

/-- Witness for C1: a three-object container enumerated with page size 2. -/
theorem list_all_objects_complete_witness :
    keysSorted demoListing ∧
    (∃ result, list_all_objects demoListing 2 = some result ∧ result = demoListing ∧
      result.length = demoListing.length ∧
      List.Pairwise (fun a b => a.name < b.name) result) :=
  ⟨demoListing_sorted, list_all_objects_complete demoListing 2 demoListing_sorted (by decide)⟩

/-- C2 counterexample: against the concrete backend `dupPageBackend`, whose
every page ends in the same last key `"dup"` (a non-advancing cursor), the
pagination loop of `list_all_objects` does not terminate: after a million
unfolded iterations it has neither produced a result nor signalled any fault
(the source has no `PaginationFault`; its only exit is an empty page, so it
loops forever — the inline induction below holds for every fuel). -/
theorem dup_cursor_loops_forever :
    listLoop dupPageBackend 1000000 none [] = none := by
  have h : ∀ (fuel : Nat) (marker : Option String) (acc : List ObjectRecord),
      listLoop dupPageBackend fuel marker acc = none := by
    intro fuel
    induction fuel with
    | zero => intro marker acc; rfl
    | succ fuel ih =>
      intro marker acc
      simp only [listLoop, dupPageBackend]
      exact ih _ _
  exact h 1000000 none []

/-- C2 (amended): for every backend that never returns an empty page — in
particular one whose listing repeats the same last key (a non-advancing
cursor) — the enumeration loop of `list_all_objects` loops forever: it
returns no result for the container and raises no pagination fault, because
the source's only loop exit is an empty page. -/
theorem listLoop_nonempty_pages_loops_forever
    (backend : Option String → List ObjectRecord)
    (h : ∀ m, backend m ≠ []) :
    ∀ (fuel : Nat) (marker : Option String) (acc : List ObjectRecord),
      listLoop backend fuel marker acc = none := by
  intro fuel
  induction fuel with
  | zero => intro marker acc; rfl
  | succ fuel ih =>
    intro marker acc
    simp only [listLoop]
    rw [if_neg (by simpa [List.isEmpty_iff] using h marker)]
    exact ih _ _

/-- Witness for C2 (amended), at the concrete non-advancing backend. -/
theorem listLoop_nonempty_pages_loops_forever_witness :
    (∀ m, dupPageBackend m ≠ []) ∧ listLoop dupPageBackend 7 (some ("dup")) [] = none :=
  ⟨fun m => by simp [dupPageBackend],
   listLoop_nonempty_pages_loops_forever dupPageBackend
     (fun m => by simp [dupPageBackend]) 7 (some ("dup")) []⟩

/-- C3: the reconciliation verdict of `check_all_containers` is "within
tolerance" (the "Sizes match!" branch) exactly when the absolute difference
of the two byte totals is at most the 1000-byte tolerance; a difference of
exactly 1000 is within tolerance and a difference of 1001 is not. -/
theorem check_sizes_match_iff :
    ∀ total reported : Int,
      (check_sizes_match total reported = true ↔ |total - reported| ≤ 1000) ∧
      check_sizes_match 1000 0 = true ∧ check_sizes_match 1001 0 = false := by
  intro t r
  refine ⟨?_, by decide, by decide⟩
  by_cases h : |t - r| > 1000
  · simp only [check_sizes_match, if_pos h]
    exact iff_of_false (by simp) (not_le.mpr h)
  · simp only [check_sizes_match, if_neg h]
    exact iff_of_true (by simp) (not_lt.mp h)

/-- C10: aggregation of the empty object set returns count 0 and total 0
(the identity of the integer-sum accumulator, both in `list_all_objects`'
total and in `check_all_containers`' account total), and enumerating a
container with zero objects yields the empty sequence (with total 0) rather
than an error, for every page size. -/
theorem empty_set_aggregation :
    aggregate ([] : List ObjectRecord) = (0, 0) ∧
    sumBytes ([] : List ObjectRecord) = 0 ∧
    containersTotal ([] : List ContainerEntry) = 0 ∧
    ∀ limit : Nat, list_all_objects ([] : List ObjectRecord) limit = some [] := by
  refine ⟨rfl, rfl, rfl, fun limit => ?_⟩
  simp [list_all_objects, listLoop, pageAfter]

/-- C6 counterexample: spec example scenario 1 — the container reports
500000 bytes and enumeration totals 499500, a positive difference of 500
that is within the 1000-byte tolerance; the claim says no cause tags are
attached, but `check_for_hidden_data` attaches all four container cause
tags, because the source tests only `container_vs_objects > 0` and has no
tolerance check. -/
theorem hidden_data_within_tolerance_still_tagged :
    (check_for_hidden_data 500000 500000 scenario1Objects).container_vs_objects = 500 ∧
    |(check_for_hidden_data 500000 500000 scenario1Objects).container_vs_objects| ≤ 1000 ∧
    (check_for_hidden_data 500000 500000 scenario1Objects).container_causes
      = containerOverageCauses ∧
    containerOverageCauses ≠ [] := by
  refine ⟨?_, ?_, ?_, ?_⟩ <;> decide

/-- C6 (amended): `check_for_hidden_data` attaches the candidate-cause tags
for the container-versus-enumerated comparison exactly when that difference
is strictly positive, with no tolerance involved: every positive difference
(even one within the 1000-byte tolerance) attaches the four tags
versioning/snapshots, soft-deletion, metadata overhead and allocation
overhead, and a zero or negative difference attaches no tags at all (the
code has no listing-undercount or eventual-consistency tags). -/
theorem hidden_data_cause_tags (account_bytes container_bytes : Int)
    (objects : List ObjectRecord) :
    (0 < container_bytes - sumBytes objects →
      (check_for_hidden_data account_bytes container_bytes objects).container_causes
        = containerOverageCauses) ∧
    (container_bytes - sumBytes objects ≤ 0 →
      (check_for_hidden_data account_bytes container_bytes objects).container_causes = []) ∧
    (check_for_hidden_data account_bytes container_bytes objects).container_vs_objects
      = container_bytes - sumBytes objects := by
  refine ⟨fun h => ?_, fun h => ?_, rfl⟩
  · show (if container_bytes - sumBytes objects > 0 then containerOverageCauses else [])
      = containerOverageCauses
    rw [if_pos h]
  · show (if container_bytes - sumBytes objects > 0 then containerOverageCauses else []) = []
    rw [if_neg (not_lt.mpr h)]

/-- Witness for C6 (amended): spec example scenario 2 — container reports
10000000 bytes, enumeration totals 8000000; the positive difference attaches
the four tags. -/
theorem hidden_data_cause_tags_witness :
    (0 < (10000000 : Int) - sumBytes [⟨"x", 8000000, "", none⟩]) ∧
    (check_for_hidden_data 0 10000000 [⟨"x", 8000000, "", none⟩]).container_causes
      = containerOverageCauses :=
  ⟨by decide, (hidden_data_cause_tags 0 10000000 [⟨"x", 8000000, "", none⟩]).1 (by decide)⟩

/-- C7 counterexample: with a reported account total of −500 bytes the run
proceeds (the function is total) using the raw values, but the report it
produces is exactly the plain arithmetic record below: the code records no
`DataIntegrityAnomaly` flag for the negative value — it has no anomaly
mechanism at all — contradicting the claim that the negative value is
recorded in the report as a flagged anomaly. -/
theorem negative_total_not_flagged :
    check_for_hidden_data (-500) 0 [] =
      { account_bytes := -500, container_bytes := 0, object_bytes := 0,
        container_vs_objects := 0, account_vs_container := -500,
        container_causes := [], account_causes := [] } := by
  decide

/-- C7 (amended): a negative reported byte total does not fail the run:
`check_for_hidden_data` proceeds and its report carries the raw reported
values unmodified (so the negative value itself is visible to the caller)
with both differences computed from the raw values; no dedicated anomaly
flag is recorded. -/
theorem hidden_data_negative_raw (account_bytes container_bytes : Int)
    (objects : List ObjectRecord) (h : account_bytes < 0) :
    (check_for_hidden_data account_bytes container_bytes objects).account_bytes
        = account_bytes ∧
    (check_for_hidden_data account_bytes container_bytes objects).container_bytes
        = container_bytes ∧
    (check_for_hidden_data account_bytes container_bytes objects).object_bytes
        = sumBytes objects ∧
    (check_for_hidden_data account_bytes container_bytes objects).container_vs_objects
        = container_bytes - sumBytes objects ∧
    (check_for_hidden_data account_bytes container_bytes objects).account_vs_container
        = account_bytes - container_bytes ∧
    (check_for_hidden_data account_bytes container_bytes objects).account_bytes < 0 :=
  ⟨rfl, rfl, rfl, rfl, rfl, h⟩

/-- Witness for C7 (amended), at account total −500. -/
theorem hidden_data_negative_raw_witness :
    ((-500 : Int) < 0) ∧
    ((check_for_hidden_data (-500) 100 []).account_bytes = -500 ∧
     (check_for_hidden_data (-500) 100 []).container_bytes = 100 ∧
     (check_for_hidden_data (-500) 100 []).object_bytes = sumBytes [] ∧
     (check_for_hidden_data (-500) 100 []).container_vs_objects = 100 - sumBytes [] ∧
     (check_for_hidden_data (-500) 100 []).account_vs_container = -500 - 100 ∧
     (check_for_hidden_data (-500) 100 []).account_bytes < 0) :=
  ⟨by decide, hidden_data_negative_raw (-500) 100 [] (by decide)⟩

lemma deep_scan_length (conn : String → Except String (List ObjectRecord)) :
    ∀ pfxs : List String, (deep_container_scan_probes conn pfxs).length = pfxs.length
  | [] => rfl
  | p :: rest => by
    simp only [deep_container_scan_probes, List.length_cons, deep_scan_length conn rest]

lemma deep_scan_getD (conn : String → Except String (List ObjectRecord)) :
    ∀ (pfxs : List String) (i : Nat), i < pfxs.length →
      (deep_container_scan_probes conn pfxs).getD i noProbe
        = probeOne conn (pfxs.getD i ("")) := by
  intro pfxs
  induction pfxs with
  | nil => intro i hi; simp at hi
  | cons p rest ih =>
    intro i hi
    cases i with
    | zero => rfl
    | succ j =>
      simp only [deep_container_scan_probes, List.getD_cons_succ]
      exact ih j (by simpa using hi)

/-- C8: the probing loop of `deep_container_scan` produces one outcome per
candidate (no candidate is skipped), the outcome at each position is the
probe of that candidate alone, a failing probe is reported as a per-candidate
failure record, and an outcome depends only on the backend's response for
its own candidate — so one failing candidate leaves every other candidate's
result unaffected. -/
theorem probe_failures_isolated (conn conn2 : String → Except String (List ObjectRecord))
    (pfxs : List String) (i : Nat) (e : String) (hi : i < pfxs.length) :
    (deep_container_scan_probes conn pfxs).length = pfxs.length ∧
    (deep_container_scan_probes conn pfxs).getD i noProbe
      = probeOne conn (pfxs.getD i ("")) ∧
    (conn (pfxs.getD i ("")) = Except.error e →
      (deep_container_scan_probes conn pfxs).getD i noProbe
        = ProbeResult.failed (pfxs.getD i ("")) e) ∧
    (conn2 (pfxs.getD i ("")) = conn (pfxs.getD i ("")) →
      (deep_container_scan_probes conn2 pfxs).getD i noProbe
        = (deep_container_scan_probes conn pfxs).getD i noProbe) := by
  refine ⟨deep_scan_length conn pfxs, deep_scan_getD conn pfxs i hi,
    fun he => ?_, fun hagree => ?_⟩
  · rw [deep_scan_getD conn pfxs i hi]
    unfold probeOne
    rw [he]
  · rw [deep_scan_getD conn pfxs i hi, deep_scan_getD conn2 pfxs i hi]
    unfold probeOne
    rw [hagree]

/-- Witness for C8: the source's candidate list, against a backend whose
probe of `"."` (position 2) fails. -/
theorem probe_failures_isolated_witness :
    (2 < pfxsToTry.length) ∧
    ((deep_container_scan_probes demoConn pfxsToTry).length = pfxsToTry.length ∧
     (deep_container_scan_probes demoConn pfxsToTry).getD 2 noProbe
        = probeOne demoConn (pfxsToTry.getD 2 ("")) ∧
     (demoConn (pfxsToTry.getD 2 ("")) = Except.error ("probe failed") →
        (deep_container_scan_probes demoConn pfxsToTry).getD 2 noProbe
          = ProbeResult.failed (pfxsToTry.getD 2 ("")) ("probe failed")) ∧
     (demoConn (pfxsToTry.getD 2 ("")) = demoConn (pfxsToTry.getD 2 ("")) →
        (deep_container_scan_probes demoConn pfxsToTry).getD 2 noProbe
          = (deep_container_scan_probes demoConn pfxsToTry).getD 2 noProbe)) :=
  ⟨by decide, probe_failures_isolated demoConn demoConn pfxsToTry 2 ("probe failed") (by decide)⟩

lemma addToGroups_members_ne_nil :
    ∀ (gs : List (String × List ObjectRecord)) (k : String) (o : ObjectRecord),
      (∀ p ∈ gs, p.2 ≠ []) → ∀ p ∈ addToGroups gs k o, p.2 ≠ []
  | [], k, o, _, p, hp => by
    simp only [addToGroups, List.mem_singleton] at hp
    subst hp
    simp
  | (k', ms) :: rest, k, o, h, p, hp => by
    simp only [addToGroups] at hp
    by_cases hk : k' = k
    · rw [if_pos hk] at hp
      rcases List.mem_cons.mp hp with h1 | h1
      · subst h1
        simp
      · exact h p (List.mem_cons_of_mem _ h1)
    · rw [if_neg hk] at hp
      rcases List.mem_cons.mp hp with h1 | h1
      · subst h1
        exact h (k', ms) (List.mem_cons_self _ _)
      · exact addToGroups_members_ne_nil rest k o
          (fun q hq => h q (List.mem_cons_of_mem _ hq)) p h1

lemma backupDirs_members_ne_nil :
    ∀ (objs : List ObjectRecord) (gs : List (String × List ObjectRecord)),
      (∀ p ∈ gs, p.2 ≠ []) → ∀ p ∈ objs.foldl classifyStep gs, p.2 ≠ []
  | [], gs, h => by simpa using h
  | o :: rest, gs, h => by
    rw [List.foldl_cons]
    refine backupDirs_members_ne_nil rest (classifyStep gs o) ?_
    unfold classifyStep
    rcases hk : backupKeyOf o.name with _ | k
    · exact h
    · exact addToGroups_members_ne_nil gs k o h

/-- C9: every BackupSet produced by `analyze_backup_directories` is
non-empty, its reported object count is the length of its member list, and
its reported total size is the exact integer sum of its members' byte
sizes. -/
theorem backup_sets_well_formed (objs : List ObjectRecord) (k : String) (bs : BackupSet)
    (h : (k, bs) ∈ analyze_backup_directories objs) :
    bs.files ≠ [] ∧ bs.objects = bs.files.length ∧ bs.total_size = sumBytes bs.files := by
  unfold analyze_backup_directories at h
  rcases List.mem_map.mp h with ⟨p, hp, heq⟩
  have hne : p.2 ≠ [] :=
    backupDirs_members_ne_nil objs []
      (fun q hq => absurd hq (List.not_mem_nil q)) p hp
  have hbs : bs = ⟨p.2.length, sumBytes p.2, p.2⟩ := by
    have h2 := congrArg Prod.snd heq
    simpa using h2.symm
  subst hbs
  exact ⟨hne, rfl, rfl⟩

/-- Witness for C9: the single BackupSet of spec example scenario 3. -/
theorem backup_sets_well_formed_witness :
    (("20250726_140000", (⟨1, 50000, [objMatch]⟩ : BackupSet))
        ∈ analyze_backup_directories [objMatch]) ∧
    ((⟨1, 50000, [objMatch]⟩ : BackupSet).files ≠ [] ∧
     (⟨1, 50000, [objMatch]⟩ : BackupSet).objects
        = (⟨1, 50000, [objMatch]⟩ : BackupSet).files.length ∧
     (⟨1, 50000, [objMatch]⟩ : BackupSet).total_size
        = sumBytes (⟨1, 50000, [objMatch]⟩ : BackupSet).files) :=
  ⟨by decide,
   backup_sets_well_formed [objMatch] ("20250726_140000") ⟨1, 50000, [objMatch]⟩ (by decide)⟩

lemma lookup_addToGroups_self :
    ∀ (gs : List (String × List ObjectRecord)) (k : String) (o : ObjectRecord),
      lookupGroup (addToGroups gs k o) k = some (((lookupGroup gs k).getD []) ++ [o])
  | [], k, o => by simp [addToGroups, lookupGroup]
  | (k', ms) :: rest, k, o => by
    by_cases hk : k' = k
    · simp [addToGroups, lookupGroup, hk]
    · simp only [addToGroups, if_neg hk, lookupGroup]
      exact lookup_addToGroups_self rest k o

lemma lookup_addToGroups_other :
    ∀ (gs : List (String × List ObjectRecord)) (k key : String) (o : ObjectRecord),
      key ≠ k → lookupGroup (addToGroups gs k o) key = lookupGroup gs key
  | [], k, key, o, hne => by
    simp only [addToGroups, lookupGroup]
    rw [if_neg (fun h => hne h.symm)]
  | (k', ms) :: rest, k, key, o, hne => by
    simp only [addToGroups]
    by_cases hk : k' = k
    · rw [if_pos hk]
      simp only [lookupGroup]
      rw [if_neg (by rw [hk]; exact fun h => hne h.symm),
        if_neg (by rw [hk]; exact fun h => hne h.symm)]
    · rw [if_neg hk]
      simp only [lookupGroup]
      by_cases hky : k' = key
      · rw [if_pos hky, if_pos hky]
      · rw [if_neg hky, if_neg hky]
        exact lookup_addToGroups_other rest k key o hne

lemma foldl_classify_preserves :
    ∀ (objs : List ObjectRecord) (gs : List (String × List ObjectRecord)) (k : String)
      (ms : List ObjectRecord) (o : ObjectRecord),
      lookupGroup gs k = some ms → o ∈ ms →
      ∃ ms2, lookupGroup (objs.foldl classifyStep gs) k = some ms2 ∧ o ∈ ms2
  | [], gs, k, ms, o, hl, ho => ⟨ms, by simpa using hl, ho⟩
  | x :: rest, gs, k, ms, o, hl, ho => by
    rw [List.foldl_cons]
    have hstep : ∃ ms2, lookupGroup (classifyStep gs x) k = some ms2 ∧ o ∈ ms2 := by
      unfold classifyStep
      rcases hk : backupKeyOf x.name with _ | kx
      · exact ⟨ms, hl, ho⟩
      · by_cases hkk : k = kx
        · subst hkk
          refine ⟨ms ++ [x], ?_, List.mem_append_left _ ho⟩
          rw [lookup_addToGroups_self gs k x, hl]
          rfl
        · exact ⟨ms, by rw [lookup_addToGroups_other gs kx k x hkk]; exact hl, ho⟩
    obtain ⟨ms2, hl2, ho2⟩ := hstep
    exact foldl_classify_preserves rest _ k ms2 o hl2 ho2

lemma foldl_classify_adds :
    ∀ (objs : List ObjectRecord) (gs : List (String × List ObjectRecord))
      (o : ObjectRecord) (k : String),
      o ∈ objs → backupKeyOf o.name = some k →
      ∃ ms, lookupGroup (objs.foldl classifyStep gs) k = some ms ∧ o ∈ ms
  | [], _, o, _, ho, _ => absurd ho (List.not_mem_nil o)
  | x :: rest, gs, o, k, ho, hk => by
    rw [List.foldl_cons]
    rcases List.mem_cons.mp ho with rfl | hmem
    · have hstep : lookupGroup (classifyStep gs o) k
          = some (((lookupGroup gs k).getD []) ++ [o]) := by
        unfold classifyStep
        rw [hk]
        exact lookup_addToGroups_self gs k o
      exact foldl_classify_preserves rest _ k _ o hstep
        (List.mem_append_right _ (List.mem_singleton_self o))
    · exact foldl_classify_adds rest _ o k hmem hk

lemma lookupGroup_mem :
    ∀ (gs : List (String × List ObjectRecord)) (k : String) (ms : List ObjectRecord),
      lookupGroup gs k = some ms → (k, ms) ∈ gs
  | [], k, ms, h => by simp [lookupGroup] at h
  | (k', ms') :: rest, k, ms, h => by
    simp only [lookupGroup] at h
    by_cases hk : k' = k
    · subst hk
      rw [if_pos rfl] at h
      obtain rfl : ms' = ms := Option.some.inj h
      exact List.mem_cons_self _ _
    · rw [if_neg hk] at h
      exact List.mem_cons_of_mem _ (lookupGroup_mem rest k ms h)

lemma addToGroups_consistent :
    ∀ (gs : List (String × List ObjectRecord)) (k : String) (o : ObjectRecord),
      GroupsConsistent gs → backupKeyOf o.name = some k →
      GroupsConsistent (addToGroups gs k o)
  | [], k, o, _, hk => by
    intro p hp oo hoo
    simp only [addToGroups, List.mem_singleton] at hp
    subst hp
    simp only [List.mem_singleton] at hoo
    subst hoo
    exact hk
  | (k', ms) :: rest, k, o, hc, hk => by
    intro p hp oo hoo
    simp only [addToGroups] at hp
    by_cases hkk : k' = k
    · rw [if_pos hkk] at hp
      rcases List.mem_cons.mp hp with rfl | hmem
      · rcases List.mem_append.mp hoo with h1 | h1
        · exact hc (k', ms) (List.mem_cons_self _ _) oo h1
        · rw [List.mem_singleton.mp h1, hk, hkk]
      · exact hc p (List.mem_cons_of_mem _ hmem) oo hoo
    · rw [if_neg hkk] at hp
      rcases List.mem_cons.mp hp with rfl | hmem
      · exact hc (k', ms) (List.mem_cons_self _ _) oo hoo
      · exact addToGroups_consistent rest k o
          (fun q hq => hc q (List.mem_cons_of_mem _ hq)) hk p hmem oo hoo

lemma backupDirs_consistent :
    ∀ (objs : List ObjectRecord) (gs : List (String × List ObjectRecord)),
      GroupsConsistent gs → GroupsConsistent (objs.foldl classifyStep gs)
  | [], gs, h => by simpa using h
  | x :: rest, gs, h => by
    rw [List.foldl_cons]
    refine backupDirs_consistent rest _ ?_
    unfold classifyStep
    rcases hk : backupKeyOf x.name with _ | kx
    · exact h
    · exact addToGroups_consistent gs kx x h hk

lemma addToGroups_keys_sub :
    ∀ (gs : List (String × List ObjectRecord)) (k : String) (o : ObjectRecord) (key : String),
      key ∈ (addToGroups gs k o).map Prod.fst → key = k ∨ key ∈ gs.map Prod.fst
  | [], k, o, key, h => by
    simp only [addToGroups, List.map_cons, List.map_nil, List.mem_singleton] at h
    exact Or.inl h
  | (k', ms) :: rest, k, o, key, h => by
    simp only [addToGroups] at h
    by_cases hk : k' = k
    · rw [if_pos hk] at h
      simp only [List.map_cons, List.mem_cons] at h
      rcases h with h | h
      · exact Or.inr (by simp [h])
      · exact Or.inr (by simp [h])
    · rw [if_neg hk] at h
      simp only [List.map_cons, List.mem_cons] at h
      rcases h with h | h
      · exact Or.inr (by simp [h])
      · rcases addToGroups_keys_sub rest k o key h with h1 | h1
        · exact Or.inl h1
        · exact Or.inr (by simp [h1])

lemma addToGroups_keys_nodup :
    ∀ (gs : List (String × List ObjectRecord)) (k : String) (o : ObjectRecord),
      (gs.map Prod.fst).Nodup → ((addToGroups gs k o).map Prod.fst).Nodup
  | [], k, o, _ => by simp [addToGroups]
  | (k', ms) :: rest, k, o, h => by
    simp only [List.map_cons, List.nodup_cons] at h
    obtain ⟨hnk, hnd⟩ := h
    simp only [addToGroups]
    by_cases hk : k' = k
    · rw [if_pos hk]
      simp only [List.map_cons, List.nodup_cons]
      exact ⟨hnk, hnd⟩
    · rw [if_neg hk]
      simp only [List.map_cons, List.nodup_cons]
      refine ⟨?_, addToGroups_keys_nodup rest k o hnd⟩
      intro hmem
      rcases addToGroups_keys_sub rest k o k' hmem with h1 | h1
      · exact hk h1
      · exact hnk h1

lemma backupDirs_keys_nodup :
    ∀ (objs : List ObjectRecord) (gs : List (String × List ObjectRecord)),
      (gs.map Prod.fst).Nodup → ((objs.foldl classifyStep gs).map Prod.fst).Nodup
  | [], gs, h => by simpa using h
  | x :: rest, gs, h => by
    rw [List.foldl_cons]
    refine backupDirs_keys_nodup rest _ ?_
    unfold classifyStep
    rcases hk : backupKeyOf x.name with _ | kx
    · exact h
    · exact addToGroups_keys_nodup gs kx x h

lemma eq_of_fst_eq_of_keys_nodup {α : Type} :
    ∀ (gs : List (String × α)) (p q : String × α),
      (gs.map Prod.fst).Nodup → p ∈ gs → q ∈ gs → p.1 = q.1 → p = q
  | [], p, _, _, hp, _, _ => absurd hp (List.not_mem_nil p)
  | g :: rest, p, q, hn, hp, hq, hfst => by
    simp only [List.map_cons, List.nodup_cons] at hn
    obtain ⟨hg, hnd⟩ := hn
    rcases List.mem_cons.mp hp with rfl | hp2
    · rcases List.mem_cons.mp hq with rfl | hq2
      · rfl
      · exfalso
        apply hg
        rw [hfst]
        exact List.mem_map_of_mem Prod.fst hq2
    · rcases List.mem_cons.mp hq with rfl | hq2
      · exfalso
        apply hg
        rw [← hfst]
        exact List.mem_map_of_mem Prod.fst hp2
      · exact eq_of_fst_eq_of_keys_nodup rest p q hnd hp2 hq2 hfst

/-- C4 counterexample: with the two objects of spec example scenario 3, the
classification output of `analyze_backup_directories` is exactly one
BackupSet containing only `objMatch`; the non-matching object `objResidual`
("readme.txt") is in no BackupSet, and the output has no residual component
at all — the object is silently dropped from the analysis, so it is in
"neither", contradicting the claimed partition into BackupSets and a
residual list. -/
theorem unmatched_object_dropped :
    analyze_backup_directories [objMatch, objResidual]
      = [(("20250726_140000" : String), (⟨1, 50000, [objMatch]⟩ : BackupSet))] ∧
    (∀ p ∈ analyze_backup_directories [objMatch, objResidual], objResidual ∉ p.2.files) :=
  ⟨by decide, by decide⟩

/-- C4 (amended): classification places every object whose first path
segment matches the timestamp convention in exactly one BackupSet (the one
keyed by that segment, never two); every other object — including objects
with no path separator — appears in no BackupSet, and
`analyze_backup_directories` returns no residual component, so non-matching
objects are silently dropped from its output rather than reported. -/
theorem classification_partition (objs : List ObjectRecord) (o : ObjectRecord)
    (ho : o ∈ objs) :
    (∀ k, backupKeyOf o.name = some k →
      ∃ p, p ∈ analyze_backup_directories objs ∧ o ∈ p.2.files ∧ p.1 = k) ∧
    (backupKeyOf o.name = none →
      ∀ p ∈ analyze_backup_directories objs, o ∉ p.2.files) ∧
    (∀ p q, p ∈ analyze_backup_directories objs → q ∈ analyze_backup_directories objs →
      o ∈ p.2.files → o ∈ q.2.files → p = q) := by
  have hconsistent : GroupsConsistent (backupDirs objs) :=
    backupDirs_consistent objs [] (fun p hp => absurd hp (List.not_mem_nil p))
  refine ⟨fun k hk => ?_, fun hnone p hp hof => ?_, fun p q hp hq hop hoq => ?_⟩
  · obtain ⟨ms, hl, hom⟩ := foldl_classify_adds objs [] o k ho hk
    have hmem : (k, ms) ∈ backupDirs objs := lookupGroup_mem _ k ms hl
    exact ⟨(k, ⟨ms.length, sumBytes ms, ms⟩),
      List.mem_map_of_mem _ hmem, hom, rfl⟩
  · rcases List.mem_map.mp hp with ⟨g, hg, rfl⟩
    have := hconsistent g hg o hof
    rw [hnone] at this
    exact Option.noConfusion this
  · rcases List.mem_map.mp hp with ⟨g1, hg1, rfl⟩
    rcases List.mem_map.mp hq with ⟨g2, hg2, rfl⟩
    have h1 := hconsistent g1 hg1 o hop
    have h2 := hconsistent g2 hg2 o hoq
    have hfst : g1.1 = g2.1 := Option.some.inj (h1.symm.trans h2)
    have hnodup : ((backupDirs objs).map Prod.fst).Nodup :=
      backupDirs_keys_nodup objs [] List.nodup_nil
    rw [eq_of_fst_eq_of_keys_nodup (backupDirs objs) g1 g2 hnodup hg1 hg2 hfst]

/-- Witness for C4 (amended), at the one-object listing `[objMatch]`. -/
theorem classification_partition_witness :
    objMatch ∈ [objMatch] ∧
    ((∀ k, backupKeyOf objMatch.name = some k →
      ∃ p, p ∈ analyze_backup_directories [objMatch] ∧ objMatch ∈ p.2.files ∧ p.1 = k) ∧
    (backupKeyOf objMatch.name = none →
      ∀ p ∈ analyze_backup_directories [objMatch], objMatch ∉ p.2.files) ∧
    (∀ p q, p ∈ analyze_backup_directories [objMatch] →
      q ∈ analyze_backup_directories [objMatch] →
      objMatch ∈ p.2.files → objMatch ∈ q.2.files → p = q)) :=
  ⟨by decide, classification_partition [objMatch] objMatch (by decide)⟩

lemma splitSlash_ne_nil : ∀ cs : List Char, splitSlash cs ≠ []
  | [] => by simp [splitSlash]
  | c :: rest => by
    simp only [splitSlash]
    by_cases hc : c = '/'
    · rw [if_pos hc]
      simp
    · rw [if_neg hc]
      rcases h : splitSlash rest with _ | ⟨p, ps⟩
      · simp
      · simp

lemma splitSlash_headD :
    ∀ cs : List Char, (splitSlash cs).headD [] = cs.takeWhile (fun c => decide (c ≠ '/'))
  | [] => rfl
  | c :: rest => by
    simp only [splitSlash]
    by_cases hc : c = '/'
    · rw [if_pos hc]
      subst hc
      simp [List.takeWhile_cons]
    · rw [if_neg hc]
      rcases h : splitSlash rest with _ | ⟨p, ps⟩
      · exact absurd h (splitSlash_ne_nil rest)
      · have ih := splitSlash_headD rest
        rw [h] at ih
        simp only [List.headD_cons] at ih
        simp [List.takeWhile_cons, hc, ih]

lemma splitSlash_length_ge_two :
    ∀ cs : List Char, 2 ≤ (splitSlash cs).length ↔ '/' ∈ cs
  | [] => by simp [splitSlash]
  | c :: rest => by
    simp only [splitSlash]
    by_cases hc : c = '/'
    · rw [if_pos hc]
      subst hc
      simp only [List.length_cons, List.mem_cons]
      constructor
      · intro _
        exact Or.inl trivial
      · intro _
        have h1 : 1 ≤ (splitSlash rest).length :=
          List.length_pos.mpr (splitSlash_ne_nil rest)
        omega
    · rw [if_neg hc]
      rcases h : splitSlash rest with _ | ⟨p, ps⟩
      · exact absurd h (splitSlash_ne_nil rest)
      · have ih := splitSlash_length_ge_two rest
        rw [h] at ih
        simp only [List.length_cons, List.mem_cons] at ih ⊢
        constructor
        · intro hlen
          exact Or.inr (ih.mp hlen)
        · intro hmem
          rcases hmem with h1 | h1
          · exact absurd h1.symm hc
          · exact ih.mpr h1

lemma isTimestampCore_iff (cs : List Char) :
    isTimestampCore cs = true ↔
      ∃ a b : List Char, a.length = 8 ∧ (∀ c ∈ a, isPyDigit c = true) ∧
        b.length = 6 ∧ (∀ c ∈ b, isPyDigit c = true) ∧ cs = a ++ '_' :: b := by
  unfold isTimestampCore
  simp only [Bool.and_eq_true, decide_eq_true_eq, List.all_eq_true]
  constructor
  · rintro ⟨⟨⟨hlen, hdig8⟩, hus⟩, hdig6⟩
    refine ⟨cs.take 8, cs.drop 9, ?_, hdig8, ?_, hdig6, ?_⟩
    · rw [List.length_take]
      omega
    · rw [List.length_drop]
      omega
    · have hd8ne : cs.drop 8 ≠ [] := by
        intro hnil
        have := congrArg List.length hnil
        rw [List.length_drop] at this
        simp at this
        omega
      have hhead : (cs.drop 8).head hd8ne = '_' := by
        rw [← hus, List.headD_eq_head? (cs.drop 8) ' ', List.head?_eq_head hd8ne]
        rfl
      have h9 : (9 : Nat) = 8 + 1 := rfl
      have hd8 : cs.drop 8 = '_' :: cs.drop 9 := by
        conv_lhs => rw [← List.head_cons_tail (cs.drop 8) hd8ne]
        rw [hhead, List.tail_drop, ← h9]
      conv_lhs => rw [← List.take_append_drop 8 cs]
      rw [hd8]
  · rintro ⟨a, b, ha, hda, hb, hdb, rfl⟩
    have hlen : (a ++ '_' :: b).length = 15 := by
      simp [List.length_append, ha, hb]
    have htake : (a ++ '_' :: b).take 8 = a := by
      rw [← ha]
      exact List.take_left a ('_' :: b)
    have hd8 : (a ++ '_' :: b).drop 8 = '_' :: b := by
      rw [← ha]
      exact List.drop_left a ('_' :: b)
    have hd9 : (a ++ '_' :: b).drop 9 = b := by
      have h9 : (9 : Nat) = 8 + 1 := rfl
      rw [h9, ← List.tail_drop, hd8]
      rfl
    refine ⟨⟨⟨hlen, ?_⟩, ?_⟩, ?_⟩
    · rw [htake]
      exact hda
    · rw [hd8]
      rfl
    · rw [hd9]
      exact hdb

lemma tsAccept_iff (cs : List Char) :
    tsAccept cs = true ↔
      ∃ a b : List Char, a.length = 8 ∧ (∀ c ∈ a, isPyDigit c = true) ∧
        b.length = 6 ∧ (∀ c ∈ b, isPyDigit c = true) ∧
        (cs = a ++ '_' :: b ∨ cs = (a ++ '_' :: b) ++ ['\n']) := by
  unfold tsAccept stripTrailingNewline
  by_cases hnl : cs.getLast? = some '\n'
  · rw [if_pos hnl, isTimestampCore_iff]
    constructor
    · rintro ⟨a, b, ha, hda, hb, hdb, hcs⟩
      refine ⟨a, b, ha, hda, hb, hdb, Or.inr ?_⟩
      rw [← hcs]
      exact (List.dropLast_append_getLast? '\n' hnl).symm
    · rintro ⟨a, b, ha, hda, hb, hdb, hcs | hcs⟩
      · exfalso
        have hbne : b ≠ [] := by
          intro hb0
          rw [hb0] at hb
          simp at hb
        rw [hcs, List.getLast?_append_of_ne_nil a (List.cons_ne_nil _ _)] at hnl
        have hcb : ('_' :: b) = ['_'] ++ b := rfl
        rw [hcb, List.getLast?_append_of_ne_nil ['_'] hbne] at hnl
        obtain ⟨hh, heq⟩ := List.mem_getLast?_eq_getLast (l := b) (x := '\n') hnl
        have hmem : '\n' ∈ b := heq ▸ List.getLast_mem hh
        exact absurd (hdb '\n' hmem) (by decide)
      · refine ⟨a, b, ha, hda, hb, hdb, ?_⟩
        rw [hcs, List.dropLast_concat]
  · rw [if_neg hnl, isTimestampCore_iff]
    constructor
    · rintro ⟨a, b, ha, hda, hb, hdb, hcs⟩
      exact ⟨a, b, ha, hda, hb, hdb, Or.inl hcs⟩
    · rintro ⟨a, b, ha, hda, hb, hdb, hcs | hcs⟩
      · exact ⟨a, b, ha, hda, hb, hdb, hcs⟩
      · exfalso
        apply hnl
        rw [hcs]
        exact List.getLast?_concat _

/-- C5 counterexample: from the object path "12345678_123456\n/db.sql" the
classifier's candidate key — the segment before the first separator — is
"12345678_123456\n", which contains a character that is neither a digit nor
the underscore (the trailing newline) and is 16 characters long, yet the
classifier accepts it as a backup-set key: Python's `$` anchor lets
`re.match(r'^\d{8}_\d{6}$', ...)` succeed just before a trailing newline.
This contradicts the claim that any candidate with a non-digit character is
rejected. -/
theorem newline_candidate_accepted :
    backupKeyOf ("12345678_123456\n/db.sql") = some ("12345678_123456\n") ∧
    tsAccept (("12345678_123456\n").toList) = true ∧
    ("12345678_123456\n").length ≠ 15 ∧
    ¬ (∀ c ∈ ("12345678_123456\n").toList, isPyDigit c = true ∨ c = '_') :=
  ⟨by decide, by decide, by decide, by decide⟩

/-- C5 (amended): for every object path, the classifier's candidate key is
the segment before the first path separator (the whole path when there is no
separator, in which case it is always rejected, by `len(parts) >= 2`); the
candidate is accepted as a backup-set key iff the path contains a separator
and the candidate consists of exactly 8 decimal digits (Unicode category Nd,
Python's `\d`), then an underscore, then exactly 6 decimal digits,
optionally followed by a single trailing newline (Python's `$` anchor also
matches just before a final newline); candidates with a 7-digit or 9-digit
date part, a missing underscore, or any other character that is not a
decimal digit are rejected. -/
theorem backup_key_acceptance (name : String) (cs : List Char) :
    (backupKeyOf name =
      (if '/' ∈ name.toList ∧
          tsAccept (name.toList.takeWhile (fun c => decide (c ≠ '/'))) = true then
        some (String.mk (name.toList.takeWhile (fun c => decide (c ≠ '/'))))
      else none)) ∧
    (tsAccept cs = true ↔
      ∃ a b : List Char, a.length = 8 ∧ (∀ c ∈ a, isPyDigit c = true) ∧
        b.length = 6 ∧ (∀ c ∈ b, isPyDigit c = true) ∧
        (cs = a ++ '_' :: b ∨ cs = (a ++ '_' :: b) ++ ['\n'])) ∧
    tsAccept (("20250726_140000").toList) = true ∧
    tsAccept (("١٢٣٤٥٦٧٨_١٢٣٤٥٦").toList) = true ∧
    tsAccept (("2025072_140000").toList) = false ∧
    tsAccept (("202507260_140000").toList) = false ∧
    tsAccept (("20250726140000").toList) = false ∧
    tsAccept (("2025072a_140000").toList) = false := by
  refine ⟨?_, tsAccept_iff cs, by decide, by decide, by decide, by decide, by decide, by decide⟩
  simp only [backupKeyOf]
  rw [splitSlash_headD name.toList]
  by_cases hsep : '/' ∈ name.toList
  · have h2 : 2 ≤ (splitSlash name.toList).length :=
      (splitSlash_length_ge_two name.toList).mpr hsep
    by_cases ht : tsAccept (name.toList.takeWhile (fun c => decide (c ≠ '/'))) = true
    · rw [if_pos ⟨h2, ht⟩, if_pos ⟨hsep, ht⟩]
    · rw [if_neg (fun hcon => ht hcon.2), if_neg (fun hcon => ht hcon.2)]
  · have h2 : ¬ 2 ≤ (splitSlash name.toList).length :=
      fun h => hsep ((splitSlash_length_ge_two name.toList).mp h)
    rw [if_neg (fun hcon => h2 hcon.1), if_neg (fun hcon => hsep hcon.1)]
